import Mathlib

/-!
# Opsgenie detector: `pkg/detectors/opsgenie/opsgenie.go`

A shallow embedding of `Scanner.FromData` and of the pattern `keyPat`.

* Go strings and byte slices are sequences of code points (`Str`); the
  buffers covered are the ones that are valid UTF-8 text.
* The regular-expression engine is modelled by a backtracking matcher with
  leftmost-first priorities, the semantics RE2 and Go's `regexp` implement.
* The HTTP client is an explicit state-passing function; the requests handed
  to it are recorded in a log.
* `detectors.PrefixRegex` and `(*Result).SetVerificationError` live in
  `pkg/detectors`; the first is modelled with its context bound and its
  laziness as parameters (`PrefixCfg`), the second from its description.
* The decoder of `encoding/json` is a parameter of the environment.
-/

namespace Opsgenie

/-- Text of a Go `string` or `[]byte`, as its sequence of code points. -/
abbrev Str := List Char

/-! ## `strings` -/

/-- Go's `unicode.IsSpace`: the code points with the White_Space property. -/
def isSpace (c : Char) : Bool :=
  let n := c.toNat
  (9 ≤ n && n ≤ 13) || n == 32 || n == 0x85 || n == 0xA0 || n == 0x1680 ||
  (0x2000 ≤ n && n ≤ 0x200A) || n == 0x2028 || n == 0x2029 || n == 0x202F ||
  n == 0x205F || n == 0x3000

/-- Go's `strings.TrimSpace`: leading and trailing white space removed. -/
def TrimSpace (s : Str) : Str :=
  ((s.dropWhile isSpace).reverse.dropWhile isSpace).reverse

/-- Go's `strings.HasPrefix`. -/
def HasPrefix : Str → Str → Bool
  | _, [] => true
  | [], _ :: _ => false
  | c :: s, d :: p => c == d && HasPrefix s p

/-- Go's `strings.Contains`: `sub` occurs in `s` at some offset. -/
def Contains : Str → Str → Bool
  | [], sub => HasPrefix [] sub
  | c :: s, sub => HasPrefix (c :: s) sub || Contains s sub

/-! ## Regular expressions -/

/-- Syntax tree of the fragment of RE2 that `keyPat` uses. A counted
repetition is expanded into nested optional groups, as RE2 does:
`x{0,3}?` is `(?:x(?:x(?:x)??)??)??`. -/
inductive Re where
  | eps : Re
  | chr (p : Char → Bool) : Re
  | seq (a b : Re) : Re
  | alt (a b : Re) : Re
  | opt (greedy : Bool) (a : Re) : Re
  | wordB : Re
  | cap (a : Re) : Re

/-- A thread of the matcher: the code point before the cursor, the text
after it, the number of code points consumed since the start of the match
and the span of the capture group. -/
structure MState where
  prev : Option Char
  rest : Str
  pos : Nat
  cap : Option (Nat × Nat)
  deriving DecidableEq, Repr

/-- The class `\w` of RE2: ASCII letters, digits and the underscore. -/
def isWordChar (c : Char) : Bool :=
  c.isAlphanum || c == '_'

/-- Whether the cursor of a thread stands at an ASCII word boundary (`\b`). -/
def atWordBoundary (st : MState) : Bool :=
  (match st.prev with | some c => isWordChar c | none => false) !=
  (match st.rest with | c :: _ => isWordChar c | [] => false)

/-- First alternative that succeeds. -/
def orElse (a b : Option MState) : Option MState :=
  match a with
  | some x => some x
  | none => b

/-- Backtracking matcher in continuation-passing style. The alternatives are
tried in priority order, which yields the leftmost-first match. -/
def Re.run : Re → MState → (MState → Option MState) → Option MState
  | .eps, st, k => k st
  | .chr p, st, k =>
    match st.rest with
    | [] => none
    | c :: cs => if p c then k { st with prev := some c, rest := cs, pos := st.pos + 1 } else none
  | .seq a b, st, k => a.run st (fun st1 => b.run st1 k)
  | .alt a b, st, k => orElse (a.run st k) (b.run st k)
  | .opt true a, st, k => orElse (a.run st k) (k st)
  | .opt false a, st, k => orElse (k st) (a.run st k)
  | .wordB, st, k => if atWordBoundary st then k st else none
  | .cap a, st, k => a.run st (fun st1 => k { st1 with cap := some (st.pos, st1.pos) })

/-- Counted repetition `a{n}`. -/
def Re.times : Nat → Re → Re
  | 0, _ => .eps
  | n + 1, a => .seq a (Re.times n a)

/-- Counted repetition `a{0,n}` (greedy) or `a{0,n}?` (lazy). -/
def Re.upTo (greedy : Bool) : Nat → Re → Re
  | 0, _ => .eps
  | n + 1, a => .opt greedy (.seq a (Re.upTo greedy n a))

/-- Code points equal to the ASCII letter or symbol `c` under simple case
folding: both letter cases, and the two non-ASCII code points that fold to
an ASCII letter (U+017F to `s`, U+212A to `k`). -/
def foldEq (c x : Char) : Bool :=
  x.toLower == c.toLower ||
  (c.toLower == 's' && x.toNat == 0x17F) ||
  (c.toLower == 'k' && x.toNat == 0x212A)

/-- Literal text, matched case-insensitively when `fold` is set (`(?i:...)`). -/
def Re.lit (fold : Bool) : Str → Re
  | [] => .eps
  | c :: cs => .seq (.chr (fun x => if fold then foldEq c x else x == c)) (Re.lit fold cs)

/-- Alternation of a list of expressions; the empty alternation matches
the empty text, as an empty group does. -/
def Re.anyOf : List Re → Re
  | [] => .eps
  | [a] => a
  | a :: b :: rest => .alt a (Re.anyOf (b :: rest))

/-- The match of an expression that starts at the cursor, if there is one. -/
def Re.matchAt (re : Re) (prev : Option Char) (s : Str) : Option MState :=
  re.run { prev := prev, rest := s, pos := 0, cap := none } some

/-- The row `FindAllStringSubmatch` returns for a match: the matched text,
then the text of the capture group (empty when the group took no part). -/
def submatches (s : Str) (st : MState) : List Str :=
  [s.take st.pos,
   match st.cap with
   | some (a, b) => (s.drop a).take (b - a)
   | none => []]

/-- Scan of `FindAllStringSubmatch(s, -1)` for an expression with one capture
group: the leftmost match, then the leftmost match that starts at or after
its end, and so on. `skip` counts the code points still covered by the last
match. (The rule for empty matches is not modelled: `keyPat` matches no text
shorter than 44 code points.) -/
def findAllFrom (re : Re) : Nat → Option Char → Str → List (List Str)
  | _, _, [] => []
  | skip + 1, _, c :: cs => findAllFrom re skip (some c) cs
  | 0, prev, c :: cs =>
    match re.matchAt prev (c :: cs) with
    | some st => submatches (c :: cs) st :: findAllFrom re (st.pos - 1) (some c) cs
    | none => findAllFrom re 0 (some c) cs

/-- Go's `(*Regexp).FindAllStringSubmatch(s, -1)`. -/
def FindAllStringSubmatch (re : Re) (s : Str) : List (List Str) :=
  findAllFrom re 0 none s

/-! ## `keyPat` -/

/-- Parameters of `detectors.PrefixRegex` that the specification leaves open:
the largest number of code points allowed between the keyword and the
token, and whether that stretch is matched lazily. -/
structure PrefixCfg where
  bound : Nat
  lazy : Bool

/-- The class `(?:.|[\n\r])`: `.` is any code point but the line feed. -/
def anyChar : Re :=
  .alt (.chr (fun c => c != '\n')) (.chr (fun c => c == '\n' || c == '\r'))

/-- Modelled from the spec: `detectors.PrefixRegex` is defined in
`pkg/detectors`, outside the source at hand. Per the specification it
requires a case-insensitive occurrence of one of the keywords, followed by
a bounded stretch of arbitrary text:
`(?i:k1|k2|...)(?:.|[\n\r]){0,bound}` with the stretch lazy or greedy. -/
def PrefixRegex (cfg : PrefixCfg) (keywords : List Str) : Re :=
  .seq (Re.anyOf (keywords.map (Re.lit true))) (Re.upTo (!cfg.lazy) cfg.bound anyChar)

/-- The class `[0-9a-f]`. -/
def isLowerHex (c : Char) : Bool :=
  ('0' ≤ c && c ≤ '9') || ('a' ≤ c && c ≤ 'f')

/-- The expression `[0-9a-f]{n}`. -/
def hex (n : Nat) : Re :=
  Re.times n (.chr isLowerHex)

/-- The expression `-`. -/
def dash : Re :=
  .chr (fun c => c == '-')

/-- The group `([0-9a-f]{8}-[0-9a-f]{4}-[0-9a-f]{4}-[0-9a-f]{4}-[0-9a-f]{12})`. -/
def tokenRe : Re :=
  .cap (.seq (hex 8) (.seq dash (.seq (hex 4) (.seq dash (.seq (hex 4)
    (.seq dash (.seq (hex 4) (.seq dash (hex 12)))))))))

/-- The pattern
`PrefixRegex(["opsgenie"]) + \b([0-9a-f]{8}-...-[0-9a-f]{12})\b`. -/
def keyPat (cfg : PrefixCfg) : Re :=
  .seq (PrefixRegex cfg ["opsgenie".toList]) (.seq .wordB (.seq tokenRe .wordB))

/-! ## Collaborators of the detector -/

/-- Go's `error`, as its message. -/
abbrev Error := Str

/-- The enumeration `detectorspb.DetectorType`; only the tag of this
detector is named. -/
inductive DetectorType where
  | Opsgenie : DetectorType
  | Other (code : Nat) : DetectorType
  deriving DecidableEq, Repr

/-- The fields of `detectors.Result` that the detector reads or writes.
`AnalysisInfo` is a `map[string]string`, `none` when the map is nil. -/
structure Result where
  DetectorType : DetectorType
  Raw : Str
  Verified : Bool
  verificationError : Option Error
  AnalysisInfo : Option (List (Str × Str))
  deriving DecidableEq, Repr

/-- Modelled from the spec: `(*Result).SetVerificationError` is defined in
`pkg/detectors`, outside the source at hand. Per the specification it
attaches the error as the verification error of the result, with the
credential value as context of the error. -/
def Result.SetVerificationError (r : Result) (err : Error) (_secret : Str) : Result :=
  { r with verificationError := some err }

/-- A `context.Context` value: the nil interface value, or a context. The
cancellation of a context shows in the answers of the network. -/
inductive Context where
  | nilContext : Context
  | live : Context
  deriving DecidableEq, Repr

/-- The fields of `http.Request` that the detector sets. -/
structure Request where
  Method : Str
  URL : Str
  Header : List (Str × Str)
  deriving DecidableEq, Repr

/-- The fields of `http.Response` that the detector reads. -/
structure Response where
  StatusCode : Int
  Body : Str
  deriving DecidableEq, Repr

/-- Go's `http.NewRequestWithContext` with a nil body, for a valid method
and a URL that parses (both are constants of the detector): it fails on a
nil context only. -/
def NewRequestWithContext (ctx : Context) (method url : Str) : Except Error Request :=
  match ctx with
  | .nilContext => .error "net/http: nil Context".toList
  | .live => .ok { Method := method, URL := url, Header := [] }

/-- Go's `Header.Add`. -/
def Request.HeaderAdd (req : Request) (key value : Str) : Request :=
  { req with Header := req.Header ++ [(key, value)] }

/-- A decoded JSON value. -/
inductive Json where
  | null : Json
  | bool (b : Bool) : Json
  | number (literal : Str) : Json
  | string (s : Str) : Json
  | array (items : List Json) : Json
  | object (fields : List (Str × Json)) : Json

/-- A decoded `map[string]interface{}`. -/
abbrev JsonMap := List (Str × Json)

/-- The comma-ok lookup `_, ok := data[key]`. -/
def hasKey (data : JsonMap) (key : Str) : Bool :=
  data.any (fun kv => kv.1 == key)

/-- What lies outside the detector: the shared HTTP client, whose answers
may depend on a state `σ` of the outside world that every call advances,
and the decoder of `encoding/json` applied to a response body. -/
structure Env (σ : Type) where
  Do : σ → Request → Except Error Response × σ
  Decode : Str → Except Error JsonMap

/-! ## `Scanner.FromData` -/

/-- State of the loop of `FromData`: the results appended so far, the
requests handed to `client.Do` so far, and the state of the outside world. -/
structure Run (σ : Type) where
  results : List Result
  log : List Request
  world : σ

/-- The substring that marks an alert-detail URL of the dashboard. -/
def alertDetailMarker : Str := "opsgenie.com/alert/detail/".toList

/-- The endpoint queried to verify a key. -/
def alertsURL : Str := "https://api.opsgenie.com/v2/alerts".toList

/-- One iteration of the loop `for _, match := range matches`. -/
def processMatch {σ : Type} (env : Env σ) (ctx : Context) (verify : Bool)
    (st : Run σ) (m : List Str) : Run σ :=
  if m.length ≠ 2 then st
  else
    let resMatch := TrimSpace (m.getD 1 [])
    let s1 : Result :=
      { DetectorType := .Opsgenie, Raw := resMatch, Verified := false,
        verificationError := none, AnalysisInfo := none }
    if Contains (m.getD 0 []) alertDetailMarker then st
    else if verify then
      match NewRequestWithContext ctx "GET".toList alertsURL with
      | .error _ => st
      | .ok req0 =>
        let req := req0.HeaderAdd "Authorization".toList ("GenieKey ".toList ++ resMatch)
        match env.Do st.world req with
        | (.error _, w) => { st with log := st.log ++ [req], world := w }
        | (.ok res, w) =>
          let st1 : Run σ := { st with log := st.log ++ [req], world := w }
          if res.StatusCode = 200 then
            match env.Decode res.Body with
            | .error err =>
              -- the updated `s1` is dropped: `continue` skips the `append` below
              let _s2 : Result := ({ s1 with Verified := false }).SetVerificationError err resMatch
              st1
            | .ok data =>
              let s2 : Result :=
                if hasKey data "data".toList then { s1 with Verified := true }
                else { s1 with Verified := false }
              let s3 : Result := { s2 with AnalysisInfo := some [("key".toList, resMatch)] }
              { st1 with results := st1.results ++ [s3] }
          else
            let s2 : Result := { s1 with Verified := false }
            let s3 : Result := { s2 with AnalysisInfo := some [("key".toList, resMatch)] }
            { st1 with results := st1.results ++ [s3] }
    else { st with results := st.results ++ [s1] }

/-- The loop of `FromData` over the rows of `FindAllStringSubmatch`. -/
def processMatches {σ : Type} (env : Env σ) (ctx : Context) (verify : Bool)
    (ms : List (List Str)) (st : Run σ) : Run σ :=
  ms.foldl (processMatch env ctx verify) st

/-- The method `Scanner.FromData`, started in the state `w` of the outside
world. Its error result is nil on every path and is left out. -/
def FromData {σ : Type} (cfg : PrefixCfg) (env : Env σ) (w : σ) (ctx : Context)
    (verify : Bool) (data : Str) : Run σ :=
  processMatches env ctx verify (FindAllStringSubmatch (keyPat cfg) data)
    { results := [], log := [], world := w }

/-! ## Vocabulary of the statements -/

/-- The state in which the loop of `FromData` starts. -/
def Run.start {σ : Type} (w : σ) : Run σ :=
  { results := [], log := [], world := w }

/-- The false-positive filter applied to a row: `match[0]` is free of the
alert-detail marker. -/
def survives (m : List Str) : Bool :=
  !Contains (m.getD 0 []) alertDetailMarker

/-- The credential value of a row: `strings.TrimSpace(match[1])`. -/
def keyOf (m : List Str) : Str :=
  TrimSpace (m.getD 1 [])

/-- The result appended for a candidate that was not verified. -/
def plainResult (key : Str) : Result :=
  { DetectorType := .Opsgenie, Raw := key, Verified := false,
    verificationError := none, AnalysisInfo := none }

/-- The verification request for a credential value. -/
def keyRequest (key : Str) : Request :=
  { Method := "GET".toList, URL := alertsURL,
    Header := [("Authorization".toList, "GenieKey ".toList ++ key)] }

/-- The thread after its cursor moved over one code point (unchanged at the
end of the text). -/
def MState.step (st : MState) : MState :=
  match st.rest with
  | [] => st
  | c :: cs => { st with prev := some c, rest := cs, pos := st.pos + 1 }

/-- The thread after its cursor moved over `n` code points. -/
def MState.advance : Nat → MState → MState
  | 0, st => st
  | n + 1, st => MState.advance n st.step

/-- The part of `keyPat` after the prefix: `\b(token)\b`. -/
def tokenTail : Re :=
  .seq .wordB (.seq tokenRe .wordB)

/-- The texts an expression can consume, assertions aside: the language of
the expression with `\b` read as the empty text. -/
def Re.Matches : Re → Str → Prop
  | .eps, u => u = []
  | .chr p, u => ∃ c, u = [c] ∧ p c = true
  | .seq a b, u => ∃ u1 u2, u = u1 ++ u2 ∧ a.Matches u1 ∧ b.Matches u2
  | .alt a b, u => a.Matches u ∨ b.Matches u
  | .opt _ a, u => u = [] ∨ a.Matches u
  | .wordB, u => u = []
  | .cap a, u => a.Matches u

/-- The text `u` is the keyword `kw` in some letter case: of the same
length, and code point by code point equal to it under the case folding
that `(?i:...)` applies (`foldEq`: both cases of a letter, and the long s,
U+017F, as a lowercase form of `s`). -/
def IsKeyword (kw u : Str) : Prop :=
  List.Forall₂ (fun c x => foldEq c x = true) kw u

/-- A group of `n` lowercase hexadecimal digits. -/
def IsHexGroup (n : Nat) (g : Str) : Prop :=
  g.length = n ∧ ∀ c ∈ g, isLowerHex c = true

/-- A token of the shape 8-4-4-4-12: five groups of lowercase hexadecimal
digits separated by hyphens. -/
def IsToken (t : Str) : Prop :=
  ∃ g1 g2 g3 g4 g5 : Str,
    t = g1 ++ '-' :: (g2 ++ '-' :: (g3 ++ '-' :: (g4 ++ '-' :: g5))) ∧
    IsHexGroup 8 g1 ∧ IsHexGroup 4 g2 ∧ IsHexGroup 4 g3 ∧ IsHexGroup 4 g4 ∧ IsHexGroup 12 g5

/-- The buffer holds the keyword `opsgenie`, in some letter case, followed
(at any distance) by a token. -/
def KeywordThenToken (data : Str) : Prop :=
  ∃ a kw b tok c : Str,
    data = a ++ (kw ++ (b ++ (tok ++ c))) ∧ IsKeyword "opsgenie".toList kw ∧ IsToken tok

/-! ## Sample inputs -/

/-- The credential value of the specification's example. -/
def sampleKey : Str := "1b3ec8d4-5a2f-4c3e-9a1e-2f6b7c8d9e0a".toList

/-- The buffer of the specification's example. -/
def sampleData : Str := "opsgenie_key = \"1b3ec8d4-5a2f-4c3e-9a1e-2f6b7c8d9e0a\"".toList

/-- The row `keyPat` finds in `sampleData`. -/
def sampleRow : List Str :=
  ["opsgenie_key = \"1b3ec8d4-5a2f-4c3e-9a1e-2f6b7c8d9e0a".toList, sampleKey]

/-- A second credential value. -/
def otherKey : Str := "0a1b2c3d-4e5f-4a6b-8c7d-9e8f7a6b5c4d".toList

/-- A buffer with two candidates. -/
def twoKeys : Str :=
  "opsgenie_key = \"1b3ec8d4-5a2f-4c3e-9a1e-2f6b7c8d9e0a\"\nOPSGENIE_BACKUP: 0a1b2c3d-4e5f-4a6b-8c7d-9e8f7a6b5c4d\n".toList

/-- The second row `keyPat` finds in `twoKeys`. -/
def otherRow : List Str :=
  ["OPSGENIE_BACKUP: 0a1b2c3d-4e5f-4a6b-8c7d-9e8f7a6b5c4d".toList, otherKey]

/-- The response body `{"data": []}`. -/
def bodyWithData : Str := "\x7b\"data\": []\x7d".toList

/-- The response body `{"foo": 1}`. -/
def bodyWithoutData : Str := "\x7b\"foo\": 1\x7d".toList

/-- A truncated response body, `{"data": [`. -/
def bodyTruncated : Str := "\x7b\"data\": [".toList

/-- A decoder for the sample bodies: the two well-formed ones decode to the
objects they denote, every other body is refused. -/
def sampleDecode (body : Str) : Except Error JsonMap :=
  if body = bodyWithData then .ok [("data".toList, .array [])]
  else if body = bodyWithoutData then .ok [("foo".toList, .number "1".toList)]
  else .error "unexpected EOF".toList

/-- A scripted network: the state of the outside world is the list of the
answers still to come, and each call takes the first of them; when the
script is exhausted the connection is refused. -/
def scriptedEnv : Env (List (Except Error Response)) where
  Do := fun script _ =>
    match script with
    | [] => (.error "connection refused".toList, [])
    | answer :: rest => (answer, rest)
  Decode := sampleDecode

/-! ## The loop -/

theorem processMatch_length_ne {σ : Type} (env : Env σ) (ctx : Context) (verify : Bool)
    (st : Run σ) (m : List Str) (h : m.length ≠ 2) :
    processMatch env ctx verify st m = st := by
  simp [processMatch, h]

theorem processMatch_marker {σ : Type} (env : Env σ) (ctx : Context) (verify : Bool)
    (st : Run σ) (m : List Str) (h : survives m = false) :
    processMatch env ctx verify st m = st := by
  have hc : Contains (m.getD 0 []) alertDetailMarker = true := by
    simpa [survives] using h
  unfold processMatch
  split
  · rfl
  · simp [hc]

theorem processMatch_noverify {σ : Type} (env : Env σ) (ctx : Context)
    (st : Run σ) (m : List Str) (hlen : m.length = 2) (h : survives m = true) :
    processMatch env ctx false st m =
      { st with results := st.results ++ [plainResult (keyOf m)] } := by
  have hc : Contains (m.getD 0 []) alertDetailMarker = false := by
    simpa [survives] using h
  simp only [processMatch, hlen, hc, plainResult, keyOf]
  simp

theorem processMatch_nilContext {σ : Type} (env : Env σ)
    (st : Run σ) (m : List Str) :
    processMatch env .nilContext true st m = st := by
  unfold processMatch
  split
  · rfl
  · split
    · rfl
    · simp [NewRequestWithContext]

theorem processMatch_verify {σ : Type} (env : Env σ)
    (st : Run σ) (m : List Str) (hlen : m.length = 2) (h : survives m = true) :
    processMatch env .live true st m =
      match env.Do st.world (keyRequest (keyOf m)) with
      | (.error _, w) => { st with log := st.log ++ [keyRequest (keyOf m)], world := w }
      | (.ok res, w) =>
        if res.StatusCode = 200 then
          match env.Decode res.Body with
          | .error _ => { st with log := st.log ++ [keyRequest (keyOf m)], world := w }
          | .ok data =>
            { results := st.results ++
                [{ DetectorType := .Opsgenie, Raw := keyOf m,
                   Verified := hasKey data "data".toList, verificationError := none,
                   AnalysisInfo := some [("key".toList, keyOf m)] }],
              log := st.log ++ [keyRequest (keyOf m)], world := w }
        else
          { results := st.results ++
              [{ DetectorType := .Opsgenie, Raw := keyOf m, Verified := false,
                 verificationError := none,
                 AnalysisInfo := some [("key".toList, keyOf m)] }],
            log := st.log ++ [keyRequest (keyOf m)], world := w } := by
  have hc : Contains (m.getD 0 []) alertDetailMarker = false := by
    simpa [survives] using h
  simp only [processMatch, hlen, hc, NewRequestWithContext, Request.HeaderAdd, keyRequest, keyOf]
  simp only [ne_eq, not_true_eq_false, if_false, List.nil_append, Bool.false_eq_true]
  rcases hdo : env.Do st.world _ with ⟨r, w⟩
  cases r with
  | error e => simp
  | ok res =>
    simp only
    by_cases hs : res.StatusCode = 200
    · simp only [hs, if_true]
      cases hd : env.Decode res.Body with
      | error e => simp
      | ok data =>
        simp only
        generalize hasKey data "data".toList = b
        cases b <;> simp
    · simp [hs]

theorem processMatch_frame {σ : Type} (env : Env σ) (ctx : Context) (verify : Bool)
    (st : Run σ) (m : List Str) :
    processMatch env ctx verify st m =
      { results := st.results ++ (processMatch env ctx verify (Run.start st.world) m).results,
        log := st.log ++ (processMatch env ctx verify (Run.start st.world) m).log,
        world := (processMatch env ctx verify (Run.start st.world) m).world } := by
  by_cases hlen : m.length = 2
  · cases hs : survives m with
    | false => simp [processMatch_marker _ _ _ _ _ hs, Run.start]
    | true =>
      cases verify with
      | false => simp [processMatch_noverify _ _ _ _ hlen hs, Run.start]
      | true =>
        cases ctx with
        | nilContext => simp [processMatch_nilContext, Run.start]
        | live =>
          rw [processMatch_verify _ _ _ hlen hs, processMatch_verify _ _ _ hlen hs]
          simp only [Run.start]
          rcases env.Do st.world (keyRequest (keyOf m)) with ⟨r, w⟩
          cases r with
          | error e => simp
          | ok res =>
            simp only
            by_cases h200 : res.StatusCode = 200
            · simp only [h200, if_true]
              cases env.Decode res.Body with
              | error e => simp
              | ok data => simp
            · simp [h200]
  · simp [processMatch_length_ne _ _ _ _ _ hlen, Run.start]

theorem processMatches_nil {σ : Type} (env : Env σ) (ctx : Context) (verify : Bool)
    (st : Run σ) : processMatches env ctx verify [] st = st := rfl

theorem processMatches_cons {σ : Type} (env : Env σ) (ctx : Context) (verify : Bool)
    (m : List Str) (ms : List (List Str)) (st : Run σ) :
    processMatches env ctx verify (m :: ms) st =
      processMatches env ctx verify ms (processMatch env ctx verify st m) := rfl

theorem processMatches_append {σ : Type} (env : Env σ) (ctx : Context) (verify : Bool)
    (xs ys : List (List Str)) (st : Run σ) :
    processMatches env ctx verify (xs ++ ys) st =
      processMatches env ctx verify ys (processMatches env ctx verify xs st) := by
  simp [processMatches, List.foldl_append]

theorem processMatches_frame {σ : Type} (env : Env σ) (ctx : Context) (verify : Bool)
    (ms : List (List Str)) (st : Run σ) :
    processMatches env ctx verify ms st =
      { results := st.results ++ (processMatches env ctx verify ms (Run.start st.world)).results,
        log := st.log ++ (processMatches env ctx verify ms (Run.start st.world)).log,
        world := (processMatches env ctx verify ms (Run.start st.world)).world } := by
  induction ms generalizing st with
  | nil => simp [processMatches_nil, Run.start]
  | cons m ms ih =>
    rw [processMatches_cons, processMatches_cons, ih (processMatch env ctx verify st m),
      ih (processMatch env ctx verify (Run.start st.world) m), processMatch_frame env ctx verify st m]
    simp [List.append_assoc]

theorem processMatches_filter {σ : Type} (env : Env σ) (ctx : Context) (verify : Bool)
    (ms : List (List Str)) (st : Run σ) :
    processMatches env ctx verify ms st =
      processMatches env ctx verify (ms.filter survives) st := by
  induction ms generalizing st with
  | nil => rfl
  | cons m ms ih =>
    cases hs : survives m with
    | false =>
      rw [processMatches_cons, processMatch_marker _ _ _ _ _ hs, List.filter_cons_of_neg (by simp [hs])]
      exact ih st
    | true =>
      rw [processMatches_cons, List.filter_cons_of_pos (by simp [hs]), processMatches_cons]
      exact ih _

/-! ## Rows of `FindAllStringSubmatch` -/

theorem findAllFrom_length (re : Re) (s : Str) :
    ∀ (skip : Nat) (prev : Option Char), ∀ m ∈ findAllFrom re skip prev s, m.length = 2 := by
  induction s with
  | nil => intro skip prev m hm; cases skip <;> simp [findAllFrom] at hm
  | cons c cs ih =>
    intro skip prev m hm
    cases skip with
    | succ k =>
      simp only [findAllFrom] at hm
      exact ih _ _ m hm
    | zero =>
      simp only [findAllFrom] at hm
      split at hm
      · rcases List.mem_cons.1 hm with h | h
        · subst h; simp [submatches]
        · exact ih _ _ m h
      · exact ih _ _ m hm

theorem FindAllStringSubmatch_length (re : Re) (s : Str) :
    ∀ m ∈ FindAllStringSubmatch re s, m.length = 2 :=
  findAllFrom_length re s 0 none

/-! ## Results, requests and order -/

theorem processMatches_noverify {σ : Type} (env : Env σ) (ctx : Context)
    (ms : List (List Str)) (hlen : ∀ m ∈ ms, m.length = 2) (st : Run σ) :
    processMatches env ctx false ms st =
      { st with results := st.results ++ (ms.filter survives).map (fun m => plainResult (keyOf m)) } := by
  induction ms generalizing st with
  | nil => simp [processMatches_nil]
  | cons m ms ih =>
    have hm : m.length = 2 := hlen m (List.mem_cons_self _ _)
    have hrest : ∀ x ∈ ms, x.length = 2 := fun x hx => hlen x (List.mem_cons_of_mem _ hx)
    rw [processMatches_cons]
    cases hs : survives m with
    | false =>
      rw [processMatch_marker _ _ _ _ _ hs, ih hrest, List.filter_cons_of_neg (by simp [hs])]
    | true =>
      rw [processMatch_noverify _ _ _ _ hm hs, ih hrest, List.filter_cons_of_pos (by simp [hs])]
      simp [List.append_assoc]

theorem processMatch_results {σ : Type} (env : Env σ) (ctx : Context) (verify : Bool)
    (st : Run σ) (m : List Str) :
    ∃ d : List Result, (processMatch env ctx verify st m).results = st.results ++ d ∧
      (d = [] ∨ (survives m = true ∧ d.map Result.Raw = [keyOf m])) := by
  by_cases hlen : m.length = 2
  · cases hs : survives m with
    | false => exact ⟨[], by simp [processMatch_marker _ _ _ _ _ hs], Or.inl rfl⟩
    | true =>
      cases verify with
      | false =>
        exact ⟨[plainResult (keyOf m)], by simp [processMatch_noverify _ _ _ _ hlen hs],
          Or.inr ⟨rfl, by simp [plainResult]⟩⟩
      | true =>
        cases ctx with
        | nilContext => exact ⟨[], by simp [processMatch_nilContext], Or.inl rfl⟩
        | live =>
          rw [processMatch_verify _ _ _ hlen hs]
          rcases env.Do st.world (keyRequest (keyOf m)) with ⟨r, w⟩
          cases r with
          | error e => exact ⟨[], by simp, Or.inl rfl⟩
          | ok res =>
            simp only
            by_cases h200 : res.StatusCode = 200
            · simp only [h200, if_true]
              cases env.Decode res.Body with
              | error e => exact ⟨[], by simp, Or.inl rfl⟩
              | ok data => exact ⟨_, rfl, Or.inr ⟨trivial, by simp⟩⟩
            · simp only [h200, if_false]
              exact ⟨_, rfl, Or.inr ⟨trivial, by simp⟩⟩
  · exact ⟨[], by simp [processMatch_length_ne _ _ _ _ _ hlen], Or.inl rfl⟩

theorem processMatches_results {σ : Type} (env : Env σ) (ctx : Context) (verify : Bool)
    (ms : List (List Str)) (st : Run σ) :
    ∃ rs : List Result, (processMatches env ctx verify ms st).results = st.results ++ rs ∧
      (rs.map Result.Raw).Sublist ((ms.filter survives).map keyOf) := by
  induction ms generalizing st with
  | nil => exact ⟨[], by simp [processMatches_nil], by simp⟩
  | cons m ms ih =>
    obtain ⟨d, hd, hcase⟩ := processMatch_results env ctx verify st m
    obtain ⟨rs, hrs, hsub⟩ := ih (processMatch env ctx verify st m)
    refine ⟨d ++ rs, by rw [processMatches_cons, hrs, hd, List.append_assoc], ?_⟩
    rcases hcase with h | ⟨hs, hraw⟩
    · subst h
      cases hs : survives m with
      | false => simpa [List.filter_cons_of_neg, hs] using hsub
      | true =>
        rw [List.filter_cons_of_pos (by simp [hs])]
        simpa using hsub.trans (List.sublist_cons_self _ _)
    · rw [List.filter_cons_of_pos (by simp [hs]), List.map_append, hraw]
      simpa using hsub

theorem processMatches_log {σ : Type} (env : Env σ)
    (ms : List (List Str)) (hlen : ∀ m ∈ ms, m.length = 2) (st : Run σ) :
    (processMatches env .live true ms st).log =
      st.log ++ (ms.filter survives).map (fun m => keyRequest (keyOf m)) := by
  induction ms generalizing st with
  | nil => simp [processMatches_nil]
  | cons m ms ih =>
    have hm : m.length = 2 := hlen m (List.mem_cons_self _ _)
    have hrest : ∀ x ∈ ms, x.length = 2 := fun x hx => hlen x (List.mem_cons_of_mem _ hx)
    rw [processMatches_cons, ih hrest]
    cases hs : survives m with
    | false =>
      rw [processMatch_marker _ _ _ _ _ hs, List.filter_cons_of_neg (by simp [hs])]
    | true =>
      rw [List.filter_cons_of_pos (by simp [hs]), processMatch_verify _ _ _ hm hs]
      rcases env.Do st.world (keyRequest (keyOf m)) with ⟨r, w⟩
      cases r with
      | error e => simp
      | ok res =>
        simp only
        by_cases h200 : res.StatusCode = 200
        · simp only [h200, if_true]
          cases env.Decode res.Body with
          | error e => simp
          | ok data => simp
        · simp [h200]

/-- C1: without verification `FromData` returns one result per row of
`keyPat.FindAllStringSubmatch` whose `match[0]` is free of the alert-detail
marker, in the order of the rows and without deduplication; each result has
the detector type Opsgenie, `Raw` equal to `strings.TrimSpace(match[1])`,
`Verified` false, no verification error and no `AnalysisInfo`. -/
theorem FromData_without_verification {σ : Type} (cfg : PrefixCfg) (env : Env σ) (w : σ)
    (ctx : Context) (data : Str) :
    (FromData cfg env w ctx false data).results =
      ((FindAllStringSubmatch (keyPat cfg) data).filter
          (fun m => !Contains (m.getD 0 []) alertDetailMarker)).map
        (fun m => { DetectorType := .Opsgenie, Raw := TrimSpace (m.getD 1 []),
                    Verified := false, verificationError := none, AnalysisInfo := none }) := by
  unfold FromData
  rw [processMatches_noverify env ctx _ (FindAllStringSubmatch_length _ _)]
  rfl

/-- C5: a row whose `match[0]` contains `opsgenie.com/alert/detail/` leaves
the run untouched, whatever `verify` and the network are: its iteration
appends no result, hands no request to the client and does not advance the
outside world; so `FromData` runs as if those rows were not in the list. -/
theorem alert_detail_rows_are_skipped {σ : Type} (cfg : PrefixCfg) (env : Env σ) (w : σ)
    (ctx : Context) (verify : Bool) (data : Str) :
    (∀ (st : Run σ) (m : List Str), Contains (m.getD 0 []) alertDetailMarker = true →
        processMatch env ctx verify st m = st) ∧
    FromData cfg env w ctx verify data =
      processMatches env ctx verify
        ((FindAllStringSubmatch (keyPat cfg) data).filter
          (fun m => !Contains (m.getD 0 []) alertDetailMarker))
        { results := [], log := [], world := w } := by
  constructor
  · intro st m hm
    exact processMatch_marker env ctx verify st m (by unfold survives; rw [hm]; rfl)
  · unfold FromData
    exact processMatches_filter env ctx verify _ _

/-- C9: with verification, whatever the network does, the `Raw` values of
the results form a subsequence of the trimmed captured values of the
surviving rows, hence of all rows, in discovery order; there are never more
results than surviving rows. -/
theorem results_follow_discovery_order {σ : Type} (cfg : PrefixCfg) (env : Env σ) (w : σ)
    (ctx : Context) (data : Str) :
    ((FromData cfg env w ctx true data).results.map Result.Raw).Sublist
        (((FindAllStringSubmatch (keyPat cfg) data).filter
            (fun m => !Contains (m.getD 0 []) alertDetailMarker)).map
          (fun m => TrimSpace (m.getD 1 []))) ∧
    ((FromData cfg env w ctx true data).results.map Result.Raw).Sublist
        ((FindAllStringSubmatch (keyPat cfg) data).map (fun m => TrimSpace (m.getD 1 []))) ∧
    (FromData cfg env w ctx true data).results.length ≤
        ((FindAllStringSubmatch (keyPat cfg) data).filter
            (fun m => !Contains (m.getD 0 []) alertDetailMarker)).length := by
  obtain ⟨rs, hrs, hsub⟩ :=
    processMatches_results env ctx true (FindAllStringSubmatch (keyPat cfg) data)
      { results := [], log := [], world := w }
  have hres : (FromData cfg env w ctx true data).results = rs := by
    unfold FromData
    rw [hrs]
    rfl
  rw [hres]
  refine ⟨hsub, hsub.trans ?_, ?_⟩
  · exact (List.filter_sublist _).map _
  · have hle := hsub.length_le
    rw [List.length_map, List.length_map] at hle
    exact hle

/-- C10: with verification and a request that can be constructed, the
requests handed to the client are exactly one per surviving row, in the
order of the rows, each a GET of `https://api.opsgenie.com/v2/alerts` with the
single header `Authorization: GenieKey <trimmed value>`, whatever the
network answers; without verification no request is issued. -/
theorem one_request_per_candidate {σ : Type} (cfg : PrefixCfg) (env : Env σ) (w : σ)
    (data : Str) :
    (FromData cfg env w .live true data).log =
      ((FindAllStringSubmatch (keyPat cfg) data).filter
          (fun m => !Contains (m.getD 0 []) alertDetailMarker)).map
        (fun m => { Method := "GET".toList,
                    URL := "https://api.opsgenie.com/v2/alerts".toList,
                    Header := [("Authorization".toList,
                                "GenieKey ".toList ++ TrimSpace (m.getD 1 []))] }) ∧
    ∀ ctx : Context, (FromData cfg env w ctx false data).log = [] := by
  constructor
  · unfold FromData
    rw [processMatches_log env _ (FindAllStringSubmatch_length _ _)]
    rfl
  · intro ctx
    unfold FromData
    rw [processMatches_noverify env ctx _ (FindAllStringSubmatch_length _ _)]

/-! ## Classification of a response -/

theorem processMatches_split {σ : Type} (env : Env σ) (ctx : Context) (verify : Bool)
    (pre post : List (List Str)) (m : List Str) (st : Run σ) :
    (processMatches env ctx verify (pre ++ m :: post) st).results =
      (processMatch env ctx verify (processMatches env ctx verify pre st) m).results ++
        (processMatches env ctx verify post
          (Run.start (processMatch env ctx verify (processMatches env ctx verify pre st) m).world)).results := by
  rw [processMatches_append, processMatches_cons, processMatches_frame]

/-- C3: with verification, when the request of a surviving row receives a
response that is not a 200, or a 200 whose body decodes, `FromData` returns
a result for that row, placed between the results of the rows before it and
those of the rows after it; its `Verified` flag is true exactly when the
status is 200 and the decoded object has a key `data`, whatever its value,
and it carries no verification error. -/
theorem verified_iff_data_key {σ : Type} (cfg : PrefixCfg) (env : Env σ) (w : σ)
    (data : Str) (pre post : List (List Str)) (m : List Str) (res : Response) (w1 : σ)
    (hrows : FindAllStringSubmatch (keyPat cfg) data = pre ++ m :: post)
    (hsurv : Contains (m.getD 0 []) alertDetailMarker = false)
    (hdo : env.Do (processMatches env .live true pre (Run.start w)).world
        (keyRequest (TrimSpace (m.getD 1 []))) = (.ok res, w1))
    (hdec : res.StatusCode ≠ 200 ∨ ∃ obj, env.Decode res.Body = .ok obj) :
    ∃ r : Result,
      (FromData cfg env w .live true data).results =
        (processMatches env .live true pre (Run.start w)).results ++
          r :: (processMatches env .live true post (Run.start w1)).results ∧
      r.DetectorType = .Opsgenie ∧ r.Raw = TrimSpace (m.getD 1 []) ∧
      (r.Verified = true ↔
        res.StatusCode = 200 ∧
          ∃ obj, env.Decode res.Body = .ok obj ∧ hasKey obj "data".toList = true) ∧
      r.verificationError = none := by
  have hlen : m.length = 2 :=
    FindAllStringSubmatch_length (keyPat cfg) data m (by rw [hrows]; simp)
  have hs : survives m = true := by unfold survives; rw [hsurv]; rfl
  have hstep := processMatch_verify env (processMatches env .live true pre (Run.start w)) m hlen hs
  have hdo1 : env.Do (processMatches env .live true pre (Run.start w)).world
      (keyRequest (keyOf m)) = (.ok res, w1) := hdo
  rw [hdo1] at hstep
  simp only at hstep
  have hsplit := processMatches_split env .live true pre post m (Run.start w)
  have hfd : (FromData cfg env w .live true data).results =
      (processMatches env .live true (pre ++ m :: post) (Run.start w)).results := by
    unfold FromData
    rw [hrows]
    rfl
  rw [hfd, hsplit, hstep]
  by_cases h200 : res.StatusCode = 200
  · rcases hdec with hne | ⟨obj, hobj⟩
    · exact absurd h200 hne
    · simp only [h200, if_true, hobj]
      refine ⟨_, by rw [List.append_assoc]; rfl, rfl, rfl, ?_, rfl⟩
      constructor
      · intro hv
        exact ⟨trivial, obj, rfl, hv⟩
      · rintro ⟨_, obj1, hobj1, hk⟩
        cases hobj1
        exact hk
  · simp only [h200, if_false]
    refine ⟨_, by rw [List.append_assoc]; rfl, rfl, rfl, ?_, rfl⟩
    constructor
    · intro hv
      cases hv
    · rintro ⟨h, _⟩
      exact h.elim

/-- C6: with verification, a surviving row whose request cannot be
constructed, or whose call fails in transport, adds no result, and the
other rows are processed as they are without it: on a nil context the
results are those of the rows before and after it processed alone; after a
transport failure they are the results of the rows before it followed by
those of the rows after it, processed from the state the failed call left
(and those of the other rows processed alone when the call left the outside
world unchanged). -/
theorem failed_request_drops_candidate {σ : Type} (cfg : PrefixCfg) (env : Env σ) (w : σ)
    (data : Str) (pre post : List (List Str)) (m : List Str)
    (hrows : FindAllStringSubmatch (keyPat cfg) data = pre ++ m :: post)
    (hsurv : Contains (m.getD 0 []) alertDetailMarker = false) :
    (FromData cfg env w .nilContext true data).results =
        (processMatches env .nilContext true (pre ++ post) (Run.start w)).results ∧
    ∀ (e : Error) (w1 : σ),
      env.Do (processMatches env .live true pre (Run.start w)).world
          (keyRequest (TrimSpace (m.getD 1 []))) = (.error e, w1) →
      (FromData cfg env w .live true data).results =
          (processMatches env .live true pre (Run.start w)).results ++
            (processMatches env .live true post (Run.start w1)).results ∧
      (w1 = (processMatches env .live true pre (Run.start w)).world →
        (FromData cfg env w .live true data).results =
          (processMatches env .live true (pre ++ post) (Run.start w)).results) := by
  have hlen : m.length = 2 :=
    FindAllStringSubmatch_length (keyPat cfg) data m (by rw [hrows]; simp)
  have hs : survives m = true := by unfold survives; rw [hsurv]; rfl
  constructor
  · unfold FromData
    rw [hrows]
    show (processMatches env .nilContext true (pre ++ m :: post) (Run.start w)).results = _
    rw [processMatches_append, processMatches_cons, processMatch_nilContext, processMatches_append]
  · intro e w1 hdo
    have hstep := processMatch_verify env (processMatches env .live true pre (Run.start w)) m hlen hs
    have hdo1 : env.Do (processMatches env .live true pre (Run.start w)).world
        (keyRequest (keyOf m)) = (.error e, w1) := hdo
    rw [hdo1] at hstep
    simp only at hstep
    have hfd : (FromData cfg env w .live true data).results =
        (processMatches env .live true pre (Run.start w)).results ++
          (processMatches env .live true post (Run.start w1)).results := by
      unfold FromData
      rw [hrows]
      show (processMatches env .live true (pre ++ m :: post) (Run.start w)).results = _
      rw [processMatches_split, hstep]
    refine ⟨hfd, ?_⟩
    intro hw
    rw [hfd, processMatches_append,
      processMatches_frame env .live true post (processMatches env .live true pre (Run.start w)), hw]

/-! ## The sample buffer -/

theorem run_anyChar (st : MState) (K : MState → Option MState) (c : Char) (cs : Str)
    (h : st.rest = c :: cs) : anyChar.run st K = K st.step := by
  have hstep : st.step = { st with prev := some c, rest := cs, pos := st.pos + 1 } := by
    simp [MState.step, h]
  simp only [anyChar, Re.run, h, hstep]
  by_cases hn : c = '\n'
  · simp [hn, orElse]
  · cases hK : K { st with prev := some c, rest := cs, pos := st.pos + 1 } with
    | none => simp [hn, orElse, hK]
    | some r => simp [hn, orElse, hK]

theorem advance_succ (i : Nat) (st : MState) :
    MState.advance (i + 1) st = MState.advance i st.step := rfl

theorem run_upTo_zero (g : Bool) (a : Re) (st : MState) (K : MState → Option MState) :
    (Re.upTo g 0 a).run st K = K st := rfl

theorem run_upTo_greedy (n : Nat) (a : Re) (st : MState) (K : MState → Option MState) :
    (Re.upTo true (n + 1) a).run st K =
      orElse (a.run st (fun st1 => (Re.upTo true n a).run st1 K)) (K st) := rfl

theorem run_upTo_lazy (n : Nat) (a : Re) (st : MState) (K : MState → Option MState) :
    (Re.upTo false (n + 1) a).run st K =
      orElse (K st) (a.run st (fun st1 => (Re.upTo false n a).run st1 K)) := rfl

theorem run_anyChar_end (st : MState) (K : MState → Option MState) (h : st.rest = []) :
    anyChar.run st K = none := by
  simp [anyChar, Re.run, h, orElse]

theorem upTo_lazy_run (K : MState → Option MState) (r : MState) :
    ∀ (j n : Nat) (st : MState), j ≤ n → j ≤ st.rest.length →
      (∀ i, i < j → K (MState.advance i st) = none) → K (MState.advance j st) = some r →
      (Re.upTo false n anyChar).run st K = some r := by
  intro j
  induction j with
  | zero =>
    intro n st _ _ _ hK
    have hK0 : K st = some r := hK
    cases n with
    | zero => rw [run_upTo_zero]; exact hK0
    | succ n => rw [run_upTo_lazy, hK0]; rfl
  | succ j ih =>
    intro n st hn hlen hmiss hK
    cases n with
    | zero => omega
    | succ n =>
      cases hrest : st.rest with
      | nil => rw [hrest] at hlen; simp at hlen
      | cons c cs =>
        have h0 : K st = none := hmiss 0 (Nat.succ_pos _)
        have hstep : st.step.rest = cs := by simp [MState.step, hrest]
        have hrec := ih n st.step (Nat.le_of_succ_le_succ hn)
          (by rw [hstep]; rw [hrest] at hlen; simpa using hlen)
          (fun i hi => hmiss (i + 1) (Nat.succ_lt_succ hi)) hK
        rw [run_upTo_lazy, h0, run_anyChar st _ c cs hrest]
        exact hrec

theorem upTo_greedy_none (K : MState → Option MState) :
    ∀ (n : Nat) (st : MState), (∀ i, i ≤ st.rest.length → K (MState.advance i st) = none) →
      (Re.upTo true n anyChar).run st K = none := by
  intro n
  induction n with
  | zero =>
    intro st h
    rw [run_upTo_zero]
    exact h 0 (Nat.zero_le _)
  | succ n ih =>
    intro st h
    have h0 : K st = none := h 0 (Nat.zero_le _)
    cases hrest : st.rest with
    | nil => rw [run_upTo_greedy, run_anyChar_end st _ hrest, h0]; rfl
    | cons c cs =>
      have hstep : st.step.rest = cs := by simp [MState.step, hrest]
      have hrec := ih st.step (fun i hi => h (i + 1) (by rw [hrest]; rw [hstep] at hi; simpa using hi))
      rw [run_upTo_greedy, run_anyChar st _ c cs hrest, hrec, h0]
      rfl

theorem upTo_greedy_run (K : MState → Option MState) (r : MState) :
    ∀ (j n : Nat) (st : MState), j ≤ n → j ≤ st.rest.length →
      K (MState.advance j st) = some r →
      (∀ i, j < i → i ≤ st.rest.length → K (MState.advance i st) = none) →
      (Re.upTo true n anyChar).run st K = some r := by
  intro j
  induction j with
  | zero =>
    intro n st _ _ hK hmiss
    have hK0 : K st = some r := hK
    cases n with
    | zero => rw [run_upTo_zero]; exact hK0
    | succ n =>
      cases hrest : st.rest with
      | nil => rw [run_upTo_greedy, run_anyChar_end st _ hrest, hK0]; rfl
      | cons c cs =>
        have hstep : st.step.rest = cs := by simp [MState.step, hrest]
        have hnone := upTo_greedy_none K n st.step
          (fun i hi => hmiss (i + 1) (Nat.succ_pos _) (by rw [hrest]; rw [hstep] at hi; simpa using hi))
        rw [run_upTo_greedy, run_anyChar st _ c cs hrest, hnone, hK0]
        rfl
  | succ j ih =>
    intro n st hn hlen hK hmiss
    cases n with
    | zero => omega
    | succ n =>
      cases hrest : st.rest with
      | nil => rw [hrest] at hlen; simp at hlen
      | cons c cs =>
        have hstep : st.step.rest = cs := by simp [MState.step, hrest]
        have hrec := ih n st.step (Nat.le_of_succ_le_succ hn)
          (by rw [hstep]; rw [hrest] at hlen; simpa using hlen) hK
          (fun i hji hi => hmiss (i + 1) (Nat.succ_lt_succ hji)
            (by rw [hrest]; rw [hstep] at hi; simpa using hi))
        rw [run_upTo_greedy, run_anyChar st _ c cs hrest, hrec]
        rfl

/-- The thread of the sample buffer after the keyword. -/
theorem run_keyword_sample (K : MState → Option MState) :
    (Re.lit true "opsgenie".toList).run
        { prev := none, rest := sampleData, pos := 0, cap := none } K =
      K { prev := some 'e', rest := sampleData.drop 8, pos := 8, cap := none } := by
  rfl

theorem tokenTail_sample :
    (∀ i, i < 8 → tokenTail.run
        (MState.advance i { prev := some 'e', rest := sampleData.drop 8, pos := 8, cap := none })
        some = none) ∧
    tokenTail.run
        (MState.advance 8 { prev := some 'e', rest := sampleData.drop 8, pos := 8, cap := none })
        some = some { prev := some 'a', rest := ['"'], pos := 52, cap := some (16, 52) } ∧
    (∀ i, i < 46 → 8 < i → tokenTail.run
        (MState.advance i { prev := some 'e', rest := sampleData.drop 8, pos := 8, cap := none })
        some = none) := by
  decide

theorem matchAt_sample (cfg : PrefixCfg) (h : 8 ≤ cfg.bound) :
    (keyPat cfg).matchAt none sampleData =
      some { prev := some 'a', rest := ['"'], pos := 52, cap := some (16, 52) } := by
  obtain ⟨hmiss, hhit, hlate⟩ := tokenTail_sample
  show (Re.lit true "opsgenie".toList).run
      { prev := none, rest := sampleData, pos := 0, cap := none }
      (fun st1 => (Re.upTo (!cfg.lazy) cfg.bound anyChar).run st1
        (fun st2 => tokenTail.run st2 some)) = _
  rw [run_keyword_sample]
  cases hl : cfg.lazy with
  | true =>
    exact upTo_lazy_run _ _ 8 cfg.bound _ h (by decide) hmiss hhit
  | false =>
    exact upTo_greedy_run _ _ 8 cfg.bound _ h (by decide) hhit
      (fun i hji hi => hlate i (by
        have : ({ prev := some 'e', rest := sampleData.drop 8, pos := 8, cap := none } : MState).rest.length = 45 := by decide
        omega) hji)

theorem findAllFrom_match (re : Re) (prev : Option Char) (c : Char) (cs : Str) (st : MState)
    (h : re.matchAt prev (c :: cs) = some st) :
    findAllFrom re 0 prev (c :: cs) =
      submatches (c :: cs) st :: findAllFrom re (st.pos - 1) (some c) cs := by
  simp [findAllFrom, h]

theorem rows_sample (cfg : PrefixCfg) (h : 8 ≤ cfg.bound) :
    FindAllStringSubmatch (keyPat cfg) sampleData = [sampleRow] := by
  have hm := matchAt_sample cfg h
  have hcons : sampleData = 'o' :: sampleData.tail := by decide
  unfold FindAllStringSubmatch
  rw [hcons] at hm ⊢
  rw [findAllFrom_match _ _ _ _ _ hm]
  have htail : findAllFrom (keyPat cfg) 51 (some 'o') sampleData.tail = [] := by rfl
  simp only [Nat.add_one_sub_one]
  rw [htail]
  decide

theorem survives_sampleRow : survives sampleRow = true := by decide

theorem keyOf_sampleRow : keyOf sampleRow = sampleKey := by decide

/-- C7: for the buffer `opsgenie_key = "1b3ec8d4-5a2f-4c3e-9a1e-2f6b7c8d9e0a"`,
whenever the prefix allows the 8 code points between the keyword and the
token, `keyPat` matches once, with the token as its capture group, and
without verification `FromData` returns one result, with `Raw` equal to the
token and `Verified` false, and hands no request to the client. -/
theorem sample_buffer_one_result {σ : Type} (cfg : PrefixCfg) (h : 8 ≤ cfg.bound)
    (env : Env σ) (w : σ) (ctx : Context) :
    FindAllStringSubmatch (keyPat cfg)
        "opsgenie_key = \"1b3ec8d4-5a2f-4c3e-9a1e-2f6b7c8d9e0a\"".toList =
      [["opsgenie_key = \"1b3ec8d4-5a2f-4c3e-9a1e-2f6b7c8d9e0a".toList,
        "1b3ec8d4-5a2f-4c3e-9a1e-2f6b7c8d9e0a".toList]] ∧
    FromData cfg env w ctx false
        "opsgenie_key = \"1b3ec8d4-5a2f-4c3e-9a1e-2f6b7c8d9e0a\"".toList =
      { results := [{ DetectorType := .Opsgenie,
                      Raw := "1b3ec8d4-5a2f-4c3e-9a1e-2f6b7c8d9e0a".toList,
                      Verified := false, verificationError := none, AnalysisInfo := none }],
        log := [], world := w } := by
  have hrows := rows_sample cfg h
  refine ⟨hrows, ?_⟩
  show FromData cfg env w ctx false sampleData = _
  unfold FromData
  rw [hrows, processMatches_cons, processMatches_nil,
    processMatch_noverify env ctx _ sampleRow rfl survives_sampleRow, keyOf_sampleRow]
  rfl

/-- The sample buffer under a lazy prefix with a bound of 40 code points. -/
theorem sample_buffer_one_result_witness :
    8 ≤ (PrefixCfg.mk 40 true).bound ∧
    FindAllStringSubmatch (keyPat (PrefixCfg.mk 40 true)) sampleData = [sampleRow] ∧
    FromData (PrefixCfg.mk 40 true) scriptedEnv [] .live false sampleData =
      { results := [plainResult sampleKey], log := [], world := [] } :=
  ⟨by decide, sample_buffer_one_result (PrefixCfg.mk 40 true) (by decide) scriptedEnv [] .live⟩

/-- Two candidates, answered by a 403 and by a 200 with the body
`{"data": []}`: the second result is verified. -/
theorem verified_iff_data_key_witness :
    FindAllStringSubmatch (keyPat (PrefixCfg.mk 40 true)) twoKeys = [sampleRow] ++ otherRow :: [] ∧
    ∃ r : Result,
      (FromData (PrefixCfg.mk 40 true) scriptedEnv
          [.ok { StatusCode := 403, Body := [] }, .ok { StatusCode := 200, Body := bodyWithData }]
          .live true twoKeys).results =
        [{ DetectorType := .Opsgenie, Raw := sampleKey, Verified := false,
           verificationError := none, AnalysisInfo := some [("key".toList, sampleKey)] }] ++
          r :: [] ∧
      r.DetectorType = .Opsgenie ∧ r.Raw = otherKey ∧
      (r.Verified = true ↔
        (200 : Int) = 200 ∧
          ∃ obj, sampleDecode bodyWithData = .ok obj ∧ hasKey obj "data".toList = true) ∧
      r.verificationError = none :=
  ⟨by decide,
   verified_iff_data_key (PrefixCfg.mk 40 true) scriptedEnv
    [.ok { StatusCode := 403, Body := [] }, .ok { StatusCode := 200, Body := bodyWithData }]
    twoKeys [sampleRow] [] otherRow { StatusCode := 200, Body := bodyWithData } []
    (by decide) (by decide) rfl (Or.inr ⟨_, rfl⟩)⟩

/-- Two candidates, the first of which times out: the results are those of
the second alone; on a nil context there is no result. -/
theorem failed_request_drops_candidate_witness :
    FindAllStringSubmatch (keyPat (PrefixCfg.mk 40 true)) twoKeys = [] ++ sampleRow :: [otherRow] ∧
    Contains (sampleRow.getD 0 []) alertDetailMarker = false ∧
    (FromData (PrefixCfg.mk 40 true) scriptedEnv
        [.error "timeout".toList, .ok { StatusCode := 200, Body := bodyWithData }]
        .nilContext true twoKeys).results = [] ∧
    (FromData (PrefixCfg.mk 40 true) scriptedEnv
        [.error "timeout".toList, .ok { StatusCode := 200, Body := bodyWithData }]
        .live true twoKeys).results =
      [{ DetectorType := .Opsgenie, Raw := otherKey, Verified := true,
         verificationError := none, AnalysisInfo := some [("key".toList, otherKey)] }] :=
  ⟨by decide, by decide,
   (failed_request_drops_candidate (PrefixCfg.mk 40 true) scriptedEnv
      [.error "timeout".toList, .ok { StatusCode := 200, Body := bodyWithData }]
      twoKeys [] [otherRow] sampleRow (by decide) (by decide)).1,
   ((failed_request_drops_candidate (PrefixCfg.mk 40 true) scriptedEnv
      [.error "timeout".toList, .ok { StatusCode := 200, Body := bodyWithData }]
      twoKeys [] [otherRow] sampleRow (by decide) (by decide)).2
      "timeout".toList [.ok { StatusCode := 200, Body := bodyWithData }] rfl).1⟩

/-! ## The body that fails to decode -/

/-- C2: on the sample buffer, when the network answers the verification
request with a 200 whose body fails to decode, `FromData` hands the request
to the client and returns no result at all: the result that was marked
unverified and given the decode error is dropped with the iteration. -/
theorem decode_failure_returns_no_result {σ : Type} (cfg : PrefixCfg) (h : 8 ≤ cfg.bound)
    (env : Env σ) (w w1 : σ) (res : Response) (e : Error)
    (hdo : env.Do w (keyRequest sampleKey) = (.ok res, w1))
    (h200 : res.StatusCode = 200)
    (hdec : env.Decode res.Body = .error e) :
    FromData cfg env w .live true sampleData =
      { results := [], log := [keyRequest sampleKey], world := w1 } := by
  unfold FromData
  rw [rows_sample cfg h, processMatches_cons, processMatches_nil,
    processMatch_verify env _ sampleRow rfl survives_sampleRow, keyOf_sampleRow]
  have hdo1 : env.Do (Run.mk ([] : List Result) [] w).world (keyRequest sampleKey) = (.ok res, w1) := hdo
  rw [hdo1]
  simp only [h200, if_true, hdec]
  rfl

/-- The sample buffer answered by a 200 with a truncated body. -/
theorem decode_failure_returns_no_result_witness :
    8 ≤ (PrefixCfg.mk 40 true).bound ∧
    sampleDecode bodyTruncated = .error "unexpected EOF".toList ∧
    FromData (PrefixCfg.mk 40 true) scriptedEnv
        [.ok { StatusCode := 200, Body := bodyTruncated }] .live true sampleData =
      { results := [], log := [keyRequest sampleKey], world := [] } :=
  ⟨by decide, rfl,
   decode_failure_returns_no_result (PrefixCfg.mk 40 true) (by decide) scriptedEnv
    [.ok { StatusCode := 200, Body := bodyTruncated }] []
    { StatusCode := 200, Body := bodyTruncated } "unexpected EOF".toList
    rfl rfl rfl⟩

/-- C4: with verification, when the request of a surviving row receives a
response, the row gets a result whose `AnalysisInfo` is the map from `key`
to the trimmed value if the status is not 200 or the body decodes; if the
status is 200 and the body fails to decode, the row gets no result, and so
no analysis metadata: the results are those of the rows before it followed
by those of the rows after it. -/
theorem analysis_info_unless_decode_fails {σ : Type} (cfg : PrefixCfg) (env : Env σ) (w : σ)
    (data : Str) (pre post : List (List Str)) (m : List Str) (res : Response) (w1 : σ)
    (hrows : FindAllStringSubmatch (keyPat cfg) data = pre ++ m :: post)
    (hsurv : Contains (m.getD 0 []) alertDetailMarker = false)
    (hdo : env.Do (processMatches env .live true pre (Run.start w)).world
        (keyRequest (TrimSpace (m.getD 1 []))) = (.ok res, w1)) :
    ((res.StatusCode ≠ 200 ∨ ∃ obj, env.Decode res.Body = .ok obj) →
      ∃ r : Result,
        (FromData cfg env w .live true data).results =
          (processMatches env .live true pre (Run.start w)).results ++
            r :: (processMatches env .live true post (Run.start w1)).results ∧
        r.Raw = TrimSpace (m.getD 1 []) ∧
        r.AnalysisInfo = some [("key".toList, TrimSpace (m.getD 1 []))]) ∧
    ((res.StatusCode = 200 ∧ ∃ e, env.Decode res.Body = .error e) →
      (FromData cfg env w .live true data).results =
        (processMatches env .live true pre (Run.start w)).results ++
          (processMatches env .live true post (Run.start w1)).results) := by
  have hlen : m.length = 2 :=
    FindAllStringSubmatch_length (keyPat cfg) data m (by rw [hrows]; simp)
  have hs : survives m = true := by unfold survives; rw [hsurv]; rfl
  have hstep := processMatch_verify env (processMatches env .live true pre (Run.start w)) m hlen hs
  have hdo1 : env.Do (processMatches env .live true pre (Run.start w)).world
      (keyRequest (keyOf m)) = (.ok res, w1) := hdo
  rw [hdo1] at hstep
  simp only at hstep
  have hfd : (FromData cfg env w .live true data).results =
      (processMatches env .live true (pre ++ m :: post) (Run.start w)).results := by
    unfold FromData
    rw [hrows]
    rfl
  rw [hfd, processMatches_split env .live true pre post m (Run.start w), hstep]
  constructor
  · intro hdec
    by_cases h200 : res.StatusCode = 200
    · rcases hdec with hne | ⟨obj, hobj⟩
      · exact absurd h200 hne
      · simp only [h200, if_true, hobj]
        exact ⟨_, by rw [List.append_assoc]; rfl, rfl, rfl⟩
    · simp only [h200, if_false]
      exact ⟨_, by rw [List.append_assoc]; rfl, rfl, rfl⟩
  · rintro ⟨h200, e, he⟩
    simp only [h200, if_true, he]

/-- Two candidates, the first answered by a 200 with a truncated body: the
only result, and the only analysis metadata, is that of the second. -/
theorem analysis_info_unless_decode_fails_witness :
    FindAllStringSubmatch (keyPat (PrefixCfg.mk 40 true)) twoKeys = [] ++ sampleRow :: [otherRow] ∧
    Contains (sampleRow.getD 0 []) alertDetailMarker = false ∧
    sampleDecode bodyTruncated = .error "unexpected EOF".toList ∧
    (FromData (PrefixCfg.mk 40 true) scriptedEnv
        [.ok { StatusCode := 200, Body := bodyTruncated },
         .ok { StatusCode := 200, Body := bodyWithoutData }]
        .live true twoKeys).results =
      [{ DetectorType := .Opsgenie, Raw := otherKey, Verified := false,
         verificationError := none, AnalysisInfo := some [("key".toList, otherKey)] }] :=
  ⟨by decide, by decide, rfl,
   (analysis_info_unless_decode_fails (PrefixCfg.mk 40 true) scriptedEnv
      [.ok { StatusCode := 200, Body := bodyTruncated },
       .ok { StatusCode := 200, Body := bodyWithoutData }]
      twoKeys [] [otherRow] sampleRow { StatusCode := 200, Body := bodyTruncated }
      [.ok { StatusCode := 200, Body := bodyWithoutData }]
      (by decide) (by decide) rfl).2
    ⟨rfl, "unexpected EOF".toList, rfl⟩⟩

/-! ## Buffers without a keyword followed by a token -/

theorem orElse_eq_some (a b : Option MState) (out : MState) (h : orElse a b = some out) :
    a = some out ∨ b = some out := by
  cases a with
  | none => exact Or.inr h
  | some x => exact Or.inl h

theorem run_sound (r : Re) :
    ∀ (st : MState) (k : MState → Option MState) (out : MState), r.run st k = some out →
      ∃ (u : Str) (st1 : MState), st.rest = u ++ st1.rest ∧ r.Matches u ∧ k st1 = some out := by
  induction r with
  | eps =>
    intro st k out h
    exact ⟨[], st, rfl, rfl, h⟩
  | chr p =>
    intro st k out h
    simp only [Re.run] at h
    split at h
    · cases h
    · next c cs hrest =>
      split at h
      · next hp => exact ⟨[c], _, by rw [hrest]; rfl, ⟨c, rfl, hp⟩, h⟩
      · cases h
  | seq a b iha ihb =>
    intro st k out h
    simp only [Re.run] at h
    obtain ⟨u1, st1, h1, hm1, hk1⟩ := iha st _ out h
    obtain ⟨u2, st2, h2, hm2, hk2⟩ := ihb st1 k out hk1
    exact ⟨u1 ++ u2, st2, by rw [h1, h2, List.append_assoc], ⟨u1, u2, rfl, hm1, hm2⟩, hk2⟩
  | alt a b iha ihb =>
    intro st k out h
    simp only [Re.run] at h
    rcases orElse_eq_some _ _ _ h with h1 | h1
    · obtain ⟨u, st1, hu, hm, hk⟩ := iha st k out h1
      exact ⟨u, st1, hu, Or.inl hm, hk⟩
    · obtain ⟨u, st1, hu, hm, hk⟩ := ihb st k out h1
      exact ⟨u, st1, hu, Or.inr hm, hk⟩
  | opt g a iha =>
    intro st k out h
    cases g with
    | true =>
      simp only [Re.run] at h
      rcases orElse_eq_some _ _ _ h with h1 | h1
      · obtain ⟨u, st1, hu, hm, hk⟩ := iha st k out h1
        exact ⟨u, st1, hu, Or.inr hm, hk⟩
      · exact ⟨[], st, rfl, Or.inl rfl, h1⟩
    | false =>
      simp only [Re.run] at h
      rcases orElse_eq_some _ _ _ h with h1 | h1
      · exact ⟨[], st, rfl, Or.inl rfl, h1⟩
      · obtain ⟨u, st1, hu, hm, hk⟩ := iha st k out h1
        exact ⟨u, st1, hu, Or.inr hm, hk⟩
  | wordB =>
    intro st k out h
    simp only [Re.run] at h
    split at h
    · exact ⟨[], st, rfl, rfl, h⟩
    · cases h
  | cap a iha =>
    intro st k out h
    simp only [Re.run] at h
    obtain ⟨u, st1, hu, hm, hk⟩ := iha st _ out h
    exact ⟨u, { st1 with cap := some (st.pos, st1.pos) }, hu, hm, hk⟩

theorem matches_lit (kw : Str) : ∀ u : Str, (Re.lit true kw).Matches u → IsKeyword kw u := by
  induction kw with
  | nil =>
    intro u h
    have hu : u = [] := h
    rw [hu]
    exact List.Forall₂.nil
  | cons c cs ih =>
    intro u h
    obtain ⟨u1, u2, hu, ⟨x, hx, hp⟩, h2⟩ := h
    rw [hu, hx]
    exact List.Forall₂.cons (by simpa using hp) (ih u2 h2)

theorem matches_times (p : Char → Bool) (n : Nat) :
    ∀ u : Str, (Re.times n (.chr p)).Matches u → u.length = n ∧ ∀ c ∈ u, p c = true := by
  induction n with
  | zero =>
    intro u h
    have hu : u = [] := h
    rw [hu]
    simp
  | succ n ih =>
    intro u h
    obtain ⟨u1, u2, hu, ⟨x, hx, hp⟩, h2⟩ := h
    obtain ⟨hl, hall⟩ := ih u2 h2
    rw [hu, hx]
    refine ⟨by simp [hl], ?_⟩
    intro c hc
    rcases List.mem_cons.1 hc with hc1 | hc1
    · rw [hc1]; exact hp
    · exact hall c hc1

theorem matches_hex (n : Nat) (u : Str) (h : (hex n).Matches u) : IsHexGroup n u :=
  matches_times isLowerHex n u h

theorem matches_dash (u : Str) (h : dash.Matches u) : u = ['-'] := by
  obtain ⟨c, hc, hp⟩ := h
  have : c = '-' := by simpa using hp
  rw [hc, this]

theorem matches_tokenRe (u : Str) (h : tokenRe.Matches u) : IsToken u := by
  obtain ⟨g1, r1, e1, hg1, d1, r2, e2, hd1, g2, r3, e3, hg2, d2, r4, e4, hd2,
    g3, r5, e5, hg3, d3, r6, e6, hd3, g4, r7, e7, hg4, d4, g5, e8, hd4, hg5⟩ := h
  refine ⟨g1, g2, g3, g4, g5, ?_, matches_hex _ _ hg1, matches_hex _ _ hg2,
    matches_hex _ _ hg3, matches_hex _ _ hg4, matches_hex _ _ hg5⟩
  rw [e1, e2, e3, e4, e5, e6, e7, e8, matches_dash _ hd1, matches_dash _ hd2,
    matches_dash _ hd3, matches_dash _ hd4]
  simp

theorem matches_keyPat (cfg : PrefixCfg) (u : Str) (h : (keyPat cfg).Matches u) :
    ∃ kw b tok : Str, u = kw ++ (b ++ tok) ∧ IsKeyword "opsgenie".toList kw ∧ IsToken tok := by
  obtain ⟨u1, u2, hu, ⟨kw, b, hu1, hkw, _⟩, ⟨x1, x2, hx, hx1, ⟨tok, x3, htk, htok, hx3⟩⟩⟩ := h
  have e1 : x1 = [] := hx1
  have e3 : x3 = [] := hx3
  refine ⟨kw, b, tok, ?_, matches_lit _ _ hkw, matches_tokenRe _ htok⟩
  rw [hu, hu1, hx, htk, e1, e3]
  simp

theorem findAllFrom_nil_of_no_match (re : Re) (s : Str) :
    ∀ (skip : Nat) (prev : Option Char),
      (∀ (a t : Str) (p : Option Char), s = a ++ t → re.matchAt p t = none) →
      findAllFrom re skip prev s = [] := by
  induction s with
  | nil => intro skip prev _; cases skip <;> rfl
  | cons c cs ih =>
    intro skip prev h
    have hcs : ∀ (a t : Str) (p : Option Char), cs = a ++ t → re.matchAt p t = none :=
      fun a t p hat => h (c :: a) t p (by rw [hat]; rfl)
    cases skip with
    | succ k =>
      simp only [findAllFrom]
      exact ih _ _ hcs
    | zero =>
      simp only [findAllFrom]
      rw [h [] (c :: cs) prev rfl]
      exact ih _ _ hcs

theorem rows_nil_of_no_keyword_then_token (cfg : PrefixCfg) (data : Str)
    (h : ¬ KeywordThenToken data) : FindAllStringSubmatch (keyPat cfg) data = [] := by
  apply findAllFrom_nil_of_no_match
  intro a t p hat
  cases hm : (keyPat cfg).matchAt p t with
  | none => rfl
  | some out =>
    exfalso
    obtain ⟨u, st1, hu, hmatch, _⟩ := run_sound (keyPat cfg) _ some out hm
    obtain ⟨kw, b, tok, hkbt, hkw, htok⟩ := matches_keyPat cfg u hmatch
    have ht : t = u ++ st1.rest := hu
    exact h ⟨a, kw, b, tok, st1.rest, by rw [hat, ht, hkbt]; simp, hkw, htok⟩

theorem IsToken_length (t : Str) (h : IsToken t) : t.length = 36 := by
  obtain ⟨g1, g2, g3, g4, g5, ht, ⟨h1, _⟩, ⟨h2, _⟩, ⟨h3, _⟩, ⟨h4, _⟩, ⟨h5, _⟩⟩ := h
  rw [ht]
  simp [h1, h2, h3, h4, h5]

theorem length_of_keywordThenToken (data : Str) (h : KeywordThenToken data) :
    36 ≤ data.length := by
  obtain ⟨a, kw, b, tok, c, hd, _, htok⟩ := h
  have hl := IsToken_length tok htok
  rw [hd]
  simp only [List.length_append, hl]
  omega

/-- C8: a buffer that holds no occurrence of the keyword `opsgenie`, in any
letter case, followed by an 8-4-4-4-12 lowercase-hexadecimal token makes
`FromData` return no result and hand no request to the client, for both
values of `verify`. -/
theorem no_keyword_then_token_no_result {σ : Type} (cfg : PrefixCfg) (env : Env σ) (w : σ)
    (ctx : Context) (verify : Bool) (data : Str) (h : ¬ KeywordThenToken data) :
    FromData cfg env w ctx verify data = { results := [], log := [], world := w } := by
  unfold FromData
  rw [rows_nil_of_no_keyword_then_token cfg data h]
  rfl

/-- A buffer with the keyword and no token. -/
theorem no_keyword_then_token_no_result_witness :
    ¬ KeywordThenToken "opsgenie_key = \"rotated\"".toList ∧
    FromData (PrefixCfg.mk 40 true) scriptedEnv
        [.ok { StatusCode := 200, Body := bodyWithData }] .live true
        "opsgenie_key = \"rotated\"".toList =
      { results := [], log := [],
        world := [.ok { StatusCode := 200, Body := bodyWithData }] } :=
  ⟨fun hk => absurd (length_of_keywordThenToken _ hk) (by decide),
   no_keyword_then_token_no_result (PrefixCfg.mk 40 true) scriptedEnv
    [.ok { StatusCode := 200, Body := bodyWithData }] .live true
    "opsgenie_key = \"rotated\"".toList
    (fun hk => absurd (length_of_keywordThenToken _ hk) (by decide))⟩

end Opsgenie
